import Mathlib

/-
Verification of the Quiz-Master ingestion and answer-semantics engines.

The definitions below are a shallow embedding of the TypeScript source:
  - the worker embedded in src/components/ChapterAnalysis.tsx
    (cleanAnswer, getChoiceKey, table scoring, the MERGE row loop),
  - parseRefId in src/components/ChapterAnalysis.tsx,
  - cleanMatchText, isMatch, isMultiSelect, parseMatchConfiguration and
    checkAnswerCorrectness from the answer-semantics module.

Strings are modelled as Lean `String` (lists of characters); JavaScript
`null`/`undefined` cell values are modelled as `Option String`.
-/

namespace QuizMaster

/-! ### Basic character/string helpers (JS primitive operations) -/

/-- JS `\s` whitespace test (ASCII fragment, which is all the code relies on). -/
def isWS (c : Char) : Bool := c.isWhitespace

/-- Drop leading and trailing whitespace, i.e. JS `String.prototype.trim`. -/
def trimChars (cs : List Char) : List Char :=
  ((cs.dropWhile isWS).reverse.dropWhile isWS).reverse

/-- JS `s.trim()`. -/
def jsTrim (s : String) : String := String.mk (trimChars s.toList)

/-- JS `s.toLowerCase()` (ASCII fragment). -/
def lowerStr (s : String) : String := String.mk (s.toList.map Char.toLower)

/-- JS `s.toUpperCase()` (ASCII fragment). -/
def upperStr (s : String) : String := String.mk (s.toList.map Char.toUpper)

/-- Does `cs` start with `kw`, case-insensitively (JS case-insensitive `^...` regex)? -/
def ciStarts (cs kw : List Char) : Bool :=
  (cs.take kw.length).map Char.toLower == kw.map Char.toLower

/-- Does `hay` contain `needle` as a contiguous substring? -/
def startsWithChars : List Char → List Char → Bool
  | _, [] => true
  | [], _ :: _ => false
  | a :: as, b :: bs => a == b && startsWithChars as bs

/-- Substring containment on character lists. -/
def containsSubChars : List Char → List Char → Bool
  | [], needle => needle.isEmpty
  | a :: t, needle => startsWithChars (a :: t) needle || containsSubChars t needle

/-- Case-insensitive substring test: JS `/needle/i.test(hay)`. -/
def containsCI (needle hay : String) : Bool :=
  containsSubChars (hay.toList.map Char.toLower) (needle.toList.map Char.toLower)

/-- Split a character list at every occurrence of `c` (JS `s.split(c)`). -/
def splitOnChar (c : Char) : List Char → List (List Char)
  | [] => [[]]
  | a :: t =>
    if a == c then [] :: splitOnChar c t
    else
      match splitOnChar c t with
      | [] => [[a]]
      | h :: r => (a :: h) :: r

/-- Numeric value of a digit string (JS `parseInt` on an all-digit string). -/
def digitsVal (cs : List Char) : Nat :=
  cs.foldl (fun n c => n * 10 + (c.toNat - 48)) 0

/-! ### Answer normalizer — `cleanAnswer` in the worker code of
src/components/ChapterAnalysis.tsx -/

/-- Strip one leading and one trailing double quote:
JS `str.replace(/^"/, '').replace(/"$/, '')`. -/
def stripOuterQuotes (cs : List Char) : List Char :=
  let a := match cs with
    | '"' :: t => t
    | _ => cs
  if a.getLast? == some '"' then a.dropLast else a

/-- Drop a run of colons and whitespace (the `[:\s]*` tail of the answer-tag regex). -/
def dropColonWS (cs : List Char) : List Char :=
  cs.dropWhile (fun c => c == ':' || c.isWhitespace)

/-- JS `str.replace(/^(?:Option[:\s]*|Answer[:\s]*|The answer is[:\s]*)/i, '')`. -/
def stripAnsTag (cs : List Char) : List Char :=
  if ciStarts cs "Option".toList then dropColonWS (cs.drop 6)
  else if ciStarts cs "Answer".toList then dropColonWS (cs.drop 6)
  else if ciStarts cs "The answer is".toList then dropColonWS (cs.drop 13)
  else cs

/-- JS `str.replace(/[\.\)]$/, '')`: drop a single trailing `.` or `)`. -/
def stripTrailingPunct (cs : List Char) : List Char :=
  match cs.getLast? with
  | some c => if c == '.' || c == ')' then cs.dropLast else cs
  | none => cs

/-- The worker's `cleanAnswer` on a non-null string cell. -/
def cleanAnswerStr (s : String) : String :=
  let t := trimChars s.toList
  if t.any (· == '\n') || (t.any (· == ',') && t.any Char.isDigit) then
    String.mk (stripOuterQuotes t)
  else
    let u := stripAnsTag t
    let v := stripTrailingPunct u
    if !v.isEmpty && v.all Char.isDigit then
      let num := digitsVal v
      if 1 ≤ num && num ≤ 26 then String.mk [Char.ofNat (64 + num)]
      else String.mk (v.map Char.toUpper)
    else String.mk (v.map Char.toUpper)

/-- The worker's `cleanAnswer`, including the `null`/`undefined` guard. -/
def cleanAnswer : Option String → String
  | none => ""
  | some s => cleanAnswerStr s

/-- The normalizer exactly as the spec sentence words it (no initial trim; the
branch test is on the raw value; the stripped leading tags are exactly
`Option:?`, `Answer:?`, `The answer is:?`).  Introduced only to compare the
spec sentence with the source function `cleanAnswerStr`. -/
def specCleanLiteral (s : String) : String :=
  let t := s.toList
  if t.any (· == '\n') || (t.any (· == ',') && t.any Char.isDigit) then
    String.mk (stripOuterQuotes t)
  else
    let u :=
      if ciStarts t "Option".toList then
        match t.drop 6 with
        | ':' :: r => r
        | r => r
      else if ciStarts t "Answer".toList then
        match t.drop 6 with
        | ':' :: r => r
        | r => r
      else if ciStarts t "The answer is".toList then
        match t.drop 13 with
        | ':' :: r => r
        | r => r
      else t
    let v := stripTrailingPunct u
    if !v.isEmpty && v.all Char.isDigit then
      let num := digitsVal v
      if 1 ≤ num && num ≤ 26 then String.mk [Char.ofNat (64 + num)]
      else String.mk (v.map Char.toUpper)
    else String.mk (v.map Char.toUpper)

/-- The amended spec sentence for the normalizer: the raw value is trimmed
first, the complex-answer test is made on the trimmed value, and the stripped
leading tag is the keyword followed by any run of colons and whitespace. -/
def specCleanAmended (s : String) : String :=
  let t := trimChars s.toList
  let complex := t.any (· == '\n') || (t.any (· == ',') && t.any Char.isDigit)
  if complex then String.mk (stripOuterQuotes t)
  else
    let u := stripAnsTag t
    let v := stripTrailingPunct u
    let numeric := !v.isEmpty && v.all Char.isDigit
    if numeric && decide (1 ≤ digitsVal v ∧ digitsVal v ≤ 26) then
      String.mk [Char.ofNat (64 + digitsVal v)]
    else
      String.mk (v.map Char.toUpper)

/-! ### Reference-ID parser — `parseRefId` in src/components/ChapterAnalysis.tsx -/

/-- Split on runs of `_` or `.` and keep the non-empty pieces:
JS `raw.split(/[_\.]+/).filter(Boolean)`. -/
def splitDelims (s : String) : List String :=
  ((splitOnChar '_' s.toList).flatMap (splitOnChar '.')).filter (· ≠ []) |>.map String.mk

/-- JS `sourceFile.replace(/\.(db|sqlite|sqlite3)$/i, '')`. -/
def stripDbExt (s : String) : String :=
  let cs := s.toList
  let ciEnds := fun (suf : String) =>
    decide (suf.length ≤ cs.length) &&
      ((cs.drop (cs.length - suf.length)).map Char.toLower == suf.toList.map Char.toLower)
  if ciEnds ".sqlite3" then String.mk (cs.take (cs.length - 8))
  else if ciEnds ".sqlite" then String.mk (cs.take (cs.length - 7))
  else if ciEnds ".db" then String.mk (cs.take (cs.length - 3))
  else s

/-- JS `parseInt(s, 10)`: skip leading whitespace, optional sign, then leading
decimal digits; `none` models `NaN`. -/
def jsParseInt (s : String) : Option Int :=
  let cs := s.toList.dropWhile isWS
  let (neg, cs) := match cs with
    | '-' :: t => (true, t)
    | '+' :: t => (false, t)
    | t => (false, t)
  let ds := cs.takeWhile Char.isDigit
  if ds.isEmpty then none
  else some (if neg then -(digitsVal ds : Int) else (digitsVal ds : Int))

/-- Result of `parseRefId`: no field is ever null. -/
structure RefParts where
  book : String
  chapter : String
  question : Int
  qLabel : String
  deriving Repr, DecidableEq

/-- Function `parseRefId` from src/components/ChapterAnalysis.tsx: layered policy on the
number of delimiter-separated parts. -/
def parseRefId (refId : String) (sourceFile : String) : RefParts :=
  let raw := jsTrim refId
  let parts := splitDelims raw
  let (book, chapter, qLabel) :=
    match parts with
    | p0 :: p1 :: p2 :: rest => (p0, p1, String.intercalate "." (p2 :: rest))
    | [p0, p1] => (p0, "General", p1)
    | _ =>
      let b := if sourceFile = "" then "Uncategorized" else stripDbExt sourceFile
      let h := parts.getD 0 ""
      (b, "All", if h = "" then "0" else h)
  { book := book, chapter := chapter,
    question := (jsParseInt qLabel).getD 0, qLabel := qLabel }

/-! ### Worker column mapper and row loop — `workerCode` in
src/components/ChapterAnalysis.tsx -/

/-- The worker's `findCol`: first alias (lower-cased, trimmed) that equals some
lower-cased trimmed column name wins; returns the original column name. -/
def findCol (cols : List String) : List String → Option String
  | [] => none
  | p :: ps =>
    match List.indexOf? (jsTrim (lowerStr p)) (cols.map (fun c => jsTrim (lowerStr c))) with
    | some i => some (cols.getD i "")
    | none => findCol cols ps

def qTextColOf (cols : List String) : String :=
  (findCol cols ["Question Text", "QuestionText", "Question", "text", "body", "content"]).getD "question_text"

def refColOf (cols : List String) : Option String :=
  findCol cols ["Source", "Y", "RefID", "ReferenceID", "Code", "Label", "QID", "ID"]

def ansColOf (cols : List String) : String :=
  (findCol cols ["CorrectAnswer(s)", "CorrectAnswer", "Correct Answer", "Answer", "Key", "Ans"]).getD "correct_answer"

def expColOf (cols : List String) : String :=
  (findCol cols ["Explanation"]).getD "explanation"

def domColOf (cols : List String) : Option String := findCol cols ["Domain", "Domains"]

def subDomColOf (cols : List String) : Option String :=
  findCol cols ["Sub-Domain", "Sub Domain", "Sub_Domain", "SubDomain"]

def topColOf (cols : List String) : Option String :=
  findCol cols ["Topic Area", "TopicArea", "Topic"]

def chapColOf (cols : List String) : Option String := findCol cols ["Chapter", "Module"]

def headColOf (cols : List String) : Option String := findCol cols ["Heading"]

def idColOf (cols : List String) : String := (findCol cols ["ID", "id", "pk"]).getD "id"

/-- Replace-or-append on an association list, i.e. JS object assignment
`m[k] = v` as used for `colMap` and `choices`. -/
def setAssoc {α : Type} (m : List (String × α)) (k : String) (v : α) : List (String × α) :=
  match m with
  | [] => [(k, v)]
  | (k', v') :: t => if k' == k then (k, v) :: t else (k', v') :: setAssoc t k v

/-- JS `cols.forEach((c, i) => colMap[c] = i)`. -/
def buildColMap (cols : List String) : List (String × Nat) :=
  cols.enum.foldl (fun m p => setAssoc m p.2 p.1) []

/-- Association-list lookup (JS property access). -/
def lookupAssoc {α : Type} (m : List (String × α)) (k : String) : Option α :=
  match m with
  | [] => none
  | (k', v) :: t => if k' == k then some v else lookupAssoc t k

/-- The cell of `row` at position `i`; out-of-range and SQL NULL are both `none`. -/
def cellAt (row : List (Option String)) (i : Nat) : Option String := (row.getD i none)

/-- The worker's `rowData(name)` for a present column name. -/
def rowDataS (colMap : List (String × Nat)) (row : List (Option String)) (name : String) :
    Option String :=
  match lookupAssoc colMap name with
  | some i => cellAt row i
  | none => none

/-- The worker's `rowData(name)` when the column name itself may be undefined. -/
def rowDataO (colMap : List (String × Nat)) (row : List (Option String)) :
    Option String → Option String
  | none => none
  | some name => rowDataS colMap row name

/-- The worker's `normalize`: null becomes `""`, strings are trimmed. -/
def normCell : Option String → String
  | none => ""
  | some s => jsTrim s

/-- The worker's `getChoiceKey` regex capture:
`colName.match(/^(?:choice[ _]?)?([a-z0-9])$/i)`. -/
def choiceKeyChar (cs : List Char) : Option Char :=
  match cs with
  | [c] => if c.isAlphanum then some c else none
  | _ =>
    if (cs.take 6).map Char.toLower == "choice".toList then
      match cs.drop 6 with
      | [c] => if c.isAlphanum then some c else none
      | [sep, c] => if (sep == ' ' || sep == '_') && c.isAlphanum then some c else none
      | _ => none
    else none

/-- The worker's `getChoiceKey`: captured character upper-cased; a single digit
in range 1–26 becomes the corresponding letter. -/
def getChoiceKey (colName : String) : Option String :=
  (choiceKeyChar colName.toList).map fun c =>
    let k := c.toUpper
    if k.isDigit then
      let num := k.toNat - 48
      if 1 ≤ num && num ≤ 26 then String.mk [Char.ofNat (64 + num)] else String.mk [k]
    else String.mk [k]

/-- The worker's per-row choice assembly over all columns of the table. -/
def assembleChoices (cols : List String) (colMap : List (String × Nat))
    (row : List (Option String)) : List (String × String) :=
  cols.foldl (fun ch colName =>
    match getChoiceKey colName with
    | some key =>
      let val := normCell (rowDataS colMap row colName)
      if val = "" then ch else setAssoc ch key val
    | none => ch) []

/-- The default 4-option placeholder. -/
def defaultChoices : List (String × String) :=
  [("A", "Option A"), ("B", "Option B"), ("C", "Option C"), ("D", "Option D")]

/-- One row of the canonical `questions` table, as the worker inserts it
(`choices` models the JSON-encoded `choices_json` column). -/
structure StoredRow where
  id : String
  source_file : String
  question_text : String
  refId : String
  correct_answer : String
  choices : List (String × String)
  explanation : String
  domain : String
  sub_domain : String
  topic : String
  chapter : String
  heading : String
  hint_1 : String
  hint_2 : String
  hint_3 : String
  deriving Repr, DecidableEq

/-- One iteration of the worker's MERGE row loop: `none` models `continue`
(the row is skipped), `some` models the `INSERT` of the row.  `fallbackId`
stands for the `Math.random()` token used when the row has no usable id. -/
def processRow (sourceId sourceName : String) (cols : List String) (fallbackId : String)
    (row : List (Option String)) : Option StoredRow :=
  let colMap := buildColMap cols
  let qText := normCell (rowDataS colMap row (qTextColOf cols))
  let refId := normCell (rowDataO colMap row (refColOf cols))
  if qText = "" ∧ refId = "" then none
  else
    let ch := assembleChoices cols colMap row
    let choices := if qText = "" ∧ ch = [] then defaultChoices else ch
    let rawId :=
      let r := normCell (rowDataS colMap row (idColOf cols))
      if r = "" then fallbackId else r
    some
      { id := sourceId ++ "_" ++ rawId
        source_file := if sourceName = "" then "Unknown Source" else sourceName
        question_text := qText
        refId := refId
        correct_answer := cleanAnswer (rowDataS colMap row (ansColOf cols))
        choices := choices
        explanation :=
          let e := normCell (rowDataS colMap row (expColOf cols))
          if e = "" then "No explanation." else e
        domain := normCell (rowDataO colMap row (domColOf cols))
        sub_domain := normCell (rowDataO colMap row (subDomColOf cols))
        topic := normCell (rowDataO colMap row (topColOf cols))
        chapter := normCell (rowDataO colMap row (chapColOf cols))
        heading := normCell (rowDataO colMap row (headColOf cols))
        hint_1 := normCell (rowDataS colMap row "hint_1")
        hint_2 := normCell (rowDataS colMap row "hint_2")
        hint_3 := normCell (rowDataS colMap row "hint_3") }

/-- The worker's row loop over one table: inserted rows in order.  The
`importedCount` for the table is the length of this list (the worker increments
`totalImported` exactly once per insert). -/
def importRows (sourceId sourceName : String) (cols : List String) (fb : Nat → String) :
    Nat → List (List (Option String)) → List StoredRow
  | _, [] => []
  | i, r :: rs =>
    match processRow sourceId sourceName cols (fb i) r with
    | some q => q :: importRows sourceId sourceName cols fb (i + 1) rs
    | none => importRows sourceId sourceName cols fb (i + 1) rs

/-- The skip test of the row loop (`if (!qText && !refId) continue`). -/
def rowIsEmpty (cols : List String) (row : List (Option String)) : Bool :=
  normCell (rowDataS (buildColMap cols) row (qTextColOf cols)) = "" &&
    normCell (rowDataO (buildColMap cols) row (refColOf cols)) = ""

/-! ### Table selection — the worker's table scoring loop -/

/-- One table of a source file: its name and its column names. -/
structure SrcTable where
  name : String
  cols : List String
  deriving Repr, DecidableEq

/-- The worker's score for one table:
`if (cols.some(c => /Question/i.test(c))) score += 5; if (cols.some(c => /Answer/i.test(c))) score += 2`. -/
def tableScore (cols : List String) : Nat :=
  (if cols.any (containsCI "Question") then 5 else 0) +
    (if cols.any (containsCI "Answer") then 2 else 0)

/-- The worker's selection loop: `bestTable` starts at the first table and is
replaced only on a strictly greater score. -/
def pickBest (best : SrcTable) : List SrcTable → SrcTable
  | [] => best
  | t :: ts => if tableScore t.cols > tableScore best.cols then pickBest t ts else pickBest best ts

/-- Table selection over all (non-system) tables of one source file. -/
def selectBestTable : List SrcTable → Option SrcTable
  | [] => none
  | t :: ts => some (pickBest t ts)

/-! ### The Question record consumed by the answer-semantics module
(src/types, interface `Question`) -/

structure Question where
  id : String
  question_text : String
  choices : List (String × String)
  correct_answer : String
  explanation : String := ""
  domain : String := ""
  subDomain : String := ""
  topic : String := ""
  chapter : String := ""
  heading : String := ""
  hint_1 : Option String := none
  hint_2 : Option String := none
  hint_3 : Option String := none
  refId : Option String := none
  sourceFile : Option String := none
  deriving Repr, DecidableEq

/-! ### Matching configurator and correctness evaluator
(the answer-semantics module: cleanMatchText, isMatch, isMultiSelect,
parseMatchConfiguration, checkAnswerCorrectness) -/

/-- JS `\w` word character (ASCII). -/
def isWordChar (c : Char) : Bool := c.isAlphanum || c == '_'

/-- Function `cleanMatchText`: `text.replace(/^[\w]+[\.\)]\s*/, '').trim()` — strips a
leading enumerator like `"A. "` or `"1) "`. -/
def cleanMatchText (s : String) : String :=
  let cs := s.toList
  let run := cs.takeWhile isWordChar
  let rest := cs.dropWhile isWordChar
  if run.isEmpty then String.mk (trimChars cs)
  else
    match rest with
    | c :: t =>
      if c == '.' || c == ')' then String.mk (trimChars (t.dropWhile isWS))
      else String.mk (trimChars cs)
    | [] => String.mk (trimChars cs)

/-- Function `isMatch`: `/\[MATCH\]/i.test(questionText)`. -/
def isMatch (questionText : String) : Bool := containsCI "[MATCH]" questionText

/-- Function `isMultiSelect`, the three-priority heuristic. -/
def isMultiSelect (q : Question) : Bool :=
  if containsCI "[MULTI]" q.question_text then true
  else if isMatch q.question_text then false
  else
    let correct := upperStr (jsTrim q.correct_answer)
    if correct.toList.any (· == ',') then true
    else
      let keys := q.choices.map (·.1)
      if correct.length > 1 && decide (0 < keys.length) then
        correct.toList.all (fun c => keys.contains (String.mk [c]))
      else false

/-- One entry of a choice group of the matching configurator: the choice key and
the display text with its enumerator stripped. -/
structure MEntry where
  key : String
  text : String
  deriving Repr, DecidableEq

/-- Append an entry to the group of `id`, creating the group if absent
(`if (!idToChoices[id]) idToChoices[id] = []; idToChoices[id].push(...)`). -/
def addGroup (gs : List (String × List MEntry)) (id : String) (e : MEntry) :
    List (String × List MEntry) :=
  match gs with
  | [] => [(id, [e])]
  | (i, l) :: t => if i == id then (i, l ++ [e]) :: t else (i, l) :: addGroup t id e

/-- First character of a non-empty string's uppercased form:
JS `cleanVal.charAt(0).toUpperCase()`. -/
def headCharUpper (s : String) : String :=
  match s.toList with
  | [] => ""
  | c :: _ => String.mk [c.toUpper]

/-- JS `parts[k].charAt(0)` (the parts are already uppercased). -/
def headChar (s : String) : String :=
  match s.toList with
  | [] => ""
  | c :: _ => String.mk [c]

/-- Step 1 of `parseMatchConfiguration`: the identifier → choice-group map
built from the question's choices in enumeration order. -/
def matchGroups (q : Question) : List (String × List MEntry) :=
  q.choices.foldl (fun gs kv =>
    let cleanVal := jsTrim kv.2
    if cleanVal = "" then gs
    else addGroup gs (headCharUpper cleanVal) ⟨kv.1, cleanMatchText cleanVal⟩) []

/-- The answer-key lines: literal `\n` replaced by a newline, split, trimmed,
blank lines dropped. -/
def replEscapedNewline : List Char → List Char
  | '\\' :: 'n' :: t => '\n' :: replEscapedNewline t
  | c :: t => c :: replEscapedNewline t
  | [] => []

def matchLines (q : Question) : List String :=
  ((splitOnChar '\n' (replEscapedNewline q.correct_answer.toList)).map trimChars).filter
    (· ≠ []) |>.map String.mk

/-- One answer-key line split on commas, each part trimmed, all quote
characters removed, uppercased. -/
def lineParts (line : String) : List String :=
  (splitOnChar ',' line.toList).map (fun p =>
    String.mk (((trimChars p).filter (fun c => !(c == '\'' || c == '"'))).map Char.toUpper))

/-- The valid pair contributed by one answer-key line, if any: both first-char
identifiers must resolve to a choice group. -/
def linePairOf (gs : List (String × List MEntry)) (line : String) : Option (String × String) :=
  match lineParts line with
  | p0 :: p1 :: _ =>
    let id1 := headChar p0
    let id2 := headChar p1
    if (lookupAssoc gs id1).isSome && (lookupAssoc gs id2).isSome then some (id1, id2) else none
  | _ => none

/-- Step 2 of `parseMatchConfiguration`: the valid pairs, in line order. -/
def matchValidPairs (q : Question) : List (String × String) :=
  (matchLines q).filterMap (linePairOf (matchGroups q))

/-- JS `Set` insertion: append if not already present. -/
def addSet (l : List String) (x : String) : List String := if x ∈ l then l else l ++ [x]

/-- JS `Set` built from a list (first occurrence kept, insertion order). -/
def jsSetList (l : List String) : List String := l.foldl addSet []

/-- The left-side identifiers (a JS `Set`, insertion order). -/
def matchLeftIds (q : Question) : List String := jsSetList ((matchValidPairs q).map (·.1))

/-- The right-side identifiers. -/
def matchRightIds (q : Question) : List String := jsSetList ((matchValidPairs q).map (·.2))

/-- Sort key modelling `localeCompare(b, undefined, { numeric: true,
sensitivity: 'base' })` for the single-character identifiers produced above:
digits order numerically before letters, letters case-insensitively. -/
def natKey (s : String) : Nat × Nat :=
  match s.toList with
  | [] => (0, 0)
  | c :: _ => if c.isDigit then (1, c.toNat) else (2, c.toLower.toNat)

def natLE (a b : String) : Bool :=
  (natKey a).1 < (natKey b).1 ||
    ((natKey a).1 == (natKey b).1 && (natKey a).2 ≤ (natKey b).2)

/-- Insertion sort with the natural comparator (models `Array.prototype.sort`). -/
def insertNat (x : String) : List String → List String
  | [] => [x]
  | y :: t => if natLE x y then x :: y :: t else y :: insertNat x t

def sortNat (l : List String) : List String := l.foldr insertNat []

/-- Step 3: the left column display texts, in sorted identifier order. -/
def leftItemsOf (q : Question) : List String :=
  (sortNat (matchLeftIds q)).flatMap fun id =>
    match lookupAssoc (matchGroups q) id with
    | some g => g.map (·.text)
    | none => []

/-- Step 3: the right column choice keys, in sorted identifier order. -/
def rightChoicesOf (q : Question) : List String :=
  (sortNat (matchRightIds q)).flatMap fun id =>
    match lookupAssoc (matchGroups q) id with
    | some g => g.map (·.key)
    | none => []

/-- The `"<leftText>||<rightKey>"` strings of one valid pair (the Cartesian
product of its two groups). -/
def pairLinkList (lg rg : List MEntry) : List String :=
  lg.flatMap fun lc => rg.map fun rc => lc.text ++ "||" ++ rc.key

/-- Step 4: the correct-link set (a JS `Set`, insertion order, deduplicated). -/
def correctLinksOf (q : Question) : List String :=
  (matchValidPairs q).foldl (fun s p =>
    match lookupAssoc (matchGroups q) p.1, lookupAssoc (matchGroups q) p.2 with
    | some lg, some rg => (pairLinkList lg rg).foldl addSet s
    | _, _ => s) []

/-- The derived matching configuration. -/
structure MatchConfig where
  leftItems : List String
  rightChoices : List String
  correctLinks : List String
  isValid : Bool
  deriving Repr, DecidableEq

/-- Function `parseMatchConfiguration` assembled from its four steps;
`isValid = (correctLinks.size > 0)`. -/
def parseMatchConfiguration (q : Question) : MatchConfig :=
  { leftItems := leftItemsOf q
    rightChoices := rightChoicesOf q
    correctLinks := correctLinksOf q
    isValid := decide (0 < (correctLinksOf q).length) }

/-- A submitted answer: JS `string | string[] | null`. -/
inductive Submission where
  | none
  | single (s : String)
  | multi (l : List String)
  deriving Repr, DecidableEq

/-- The submitted link list used by the matching branch
(`Array.isArray(selectedOption) ? selectedOption : []`). -/
def subLinks : Submission → List String
  | .multi l => l
  | _ => []

/-- Function `checkAnswerCorrectness` from the answer-semantics module. -/
def checkAnswerCorrectness (q : Question) (sel : Submission) : Bool :=
  if sel = Submission.none then false
  else
    if isMatch q.question_text then
      let cfg := parseMatchConfiguration q
      if !cfg.isValid then false
      else
        let userSet := jsSetList (subLinks sel)
        if userSet.length ≠ cfg.correctLinks.length then false
        else userSet.all (fun link => cfg.correctLinks.contains link)
    else
      let correctStr := upperStr (jsTrim q.correct_answer)
      let correctOptions :=
        if correctStr.toList.any (· == ',') then
          (splitOnChar ',' correctStr.toList).map fun s =>
            String.mk ((trimChars s).filter (fun c => !(c == '\'' || c == '"')))
        else if isMultiSelect q && correctStr.length > 1 then
          correctStr.toList.map (fun c => String.mk [c])
        else [correctStr]
      if isMultiSelect q then
        let selections := match sel with
          | .multi l => l
          | .single s => [s]
          | .none => []
        let userSet := jsSetList selections
        let correctSet := jsSetList correctOptions
        userSet.length == correctSet.length && userSet.all (fun v => correctSet.contains v)
      else
        let userSelection := match sel with
          | .multi l => l.head?
          | .single s => some s
          | .none => Option.none
        match userSelection, correctOptions.head? with
        | some u, some c => u == c
        | _, _ => false

/-! ### Predicates and concrete data used by the statements below -/

/-- Is `s` a single uppercase letter (the shape the spec asserts for choice keys)? -/
def isUpperLetterKey (s : String) : Bool :=
  match s.toList with
  | [c] => c.isUpper
  | _ => false

/-- The key shape `getChoiceKey` actually produces: a single uppercase letter,
or the digit key `"0"`. -/
def keyShapeOk (s : String) : Bool := isUpperLetterKey s || s == "0"

/-- A small matching question: choices `A. Dog` (key A) and `1. Bark` (key B),
answer key line `A,1`. -/
def qDemoMatch : Question :=
  { id := "demo-match", question_text := "[MATCH] m", correct_answer := "A,1",
    choices := [("A", "A. Dog"), ("B", "1. Bark")] }

/-- A matching question whose answer key resolves to no pair at all. -/
def qDemoInvalid : Question :=
  { id := "demo-invalid", question_text := "[MATCH] x", correct_answer := "",
    choices := [("A", "A. a")] }

/-- The spec scenario: raw answer `A,C`, four choices, no multi-select tag. -/
def qDemoAC : Question :=
  { id := "demo-ac", question_text := "Which two?", correct_answer := "A,C",
    choices := [("A", "a"), ("B", "b"), ("C", "c"), ("D", "d")] }

/-- The spec scenario's two tables for table selection. -/
def tDemoNotes : SrcTable := { name := "t1", cols := ["notes", "date"] }

def tDemoQA : SrcTable := { name := "t2", cols := ["Question", "Answer", "ChoiceA", "ChoiceB"] }

/-- The row the worker stores for source table `["RefID", "A"]`, row
`(r1, " ")`: empty question text, placeholder choices. -/
def c9DemoRow : StoredRow :=
  { id := "s_r1", source_file := "f", question_text := "", refId := "r1",
    correct_answer := "", choices := defaultChoices, explanation := "No explanation.",
    domain := "", sub_domain := "", topic := "", chapter := "", heading := "",
    hint_1 := "", hint_2 := "", hint_3 := "" }

/-! ## Character-level helper lemmas (ASCII arithmetic) -/

theorem chOfNat_toNat (n : Nat) (h : n < 55296) : (Char.ofNat n).toNat = n := by
  rw [Char.ofNat, dif_pos (Or.inl h)]
  show (UInt32.ofNat' n _).toNat = n
  simp [UInt32.ofNat', UInt32.toNat]

theorem digit_bounds (c : Char) (h : c.isDigit = true) : 48 ≤ c.toNat ∧ c.toNat ≤ 57 := by
  simp [Char.isDigit] at h
  exact ⟨h.1, h.2⟩

theorem toUpper_of_digit (c : Char) (h : c.isDigit = true) : c.toUpper = c := by
  have hb := digit_bounds c h
  simp only [Char.toNat] at hb
  simp only [Char.toUpper, Char.toNat]
  rw [if_neg (by omega)]

theorem alpha_bounds (c : Char) (h : c.isAlpha = true) :
    (65 ≤ c.toNat ∧ c.toNat ≤ 90) ∨ (97 ≤ c.toNat ∧ c.toNat ≤ 122) := by
  simp [Char.isAlpha, Char.isUpper, Char.isLower] at h
  rcases h with ⟨h1, h2⟩ | ⟨h1, h2⟩
  · exact Or.inl ⟨h1, h2⟩
  · exact Or.inr ⟨h1, h2⟩

theorem isUpper_of_toNat (c : Char) (h1 : 65 ≤ c.toNat) (h2 : c.toNat ≤ 90) :
    c.isUpper = true := by
  simp only [Char.toNat] at h1 h2
  simp [Char.isUpper]
  exact ⟨h1, h2⟩

theorem isUpper_toUpper_of_alpha (c : Char) (h : c.isAlpha = true) :
    c.toUpper.isUpper = true := by
  rcases alpha_bounds c h with ⟨h1, h2⟩ | ⟨h1, h2⟩ <;> simp only [Char.toNat] at h1 h2 <;>
    simp only [Char.toUpper, Char.toNat]
  · rw [if_neg (by omega)]
    exact isUpper_of_toNat c (by simpa [Char.toNat] using h1) (by simpa [Char.toNat] using h2)
  · rw [if_pos (by omega)]
    have hv : (Char.ofNat (c.val.toNat - 32)).toNat = c.val.toNat - 32 :=
      chOfNat_toNat _ (by omega)
    exact isUpper_of_toNat _ (by omega) (by omega)

theorem isUpper_ofNat_range (n : Nat) (h1 : 65 ≤ n) (h2 : n ≤ 90) :
    (Char.ofNat n).isUpper = true := by
  have hv := chOfNat_toNat n (by omega)
  exact isUpper_of_toNat _ (by omega) (by omega)

theorem digit_sub48_zero (c : Char) (h : c.isDigit = true) (h0 : c.toNat - 48 = 0) :
    c = '0' := by
  have hb := digit_bounds c h
  have he : c.toNat = 48 := by omega
  have hc := congrArg Char.ofNat he
  rwa [Char.ofNat_toNat] at hc

/-! ## C4 — the answer normalizer -/

/-- Claim C4, counterexample.  The claim describes the normalizer with no initial
whitespace trim and with the leading prefixes `Option:?`/`Answer:?`/`The answer
is:?` (a keyword plus at most one colon).  On the raw value `" Answer: 1 "`
that literal reading yields `" ANSWER: 1 "` while the worker's `cleanAnswer`
trims first, strips the keyword together with the following colon *and
whitespace*, and yields `"A"`. -/
theorem cleanAnswer_cex :
    cleanAnswer (some " Answer: 1 ") = "A" ∧
      specCleanLiteral " Answer: 1 " = " ANSWER: 1 " ∧
      (" ANSWER: 1 " : String) ≠ "A" := by
  refine ⟨by decide, by decide, by decide⟩

/-- Claim C4, amended.  After first trimming the raw value, the normalizer
branches exactly as the spec says — complex values (newline, or comma plus
digit, in the trimmed value) only lose surrounding double quotes; otherwise a
leading `Option`/`Answer`/`The answer is` keyword followed by any run of
colons and whitespace is stripped, one trailing `.`/`)` is stripped, a purely
numeric remainder in 1–26 becomes the corresponding letter, and anything else
is uppercased.  In particular raw `"1"` normalizes to `"A"`. -/
theorem cleanAnswer_amended :
    (∀ s : String, cleanAnswer (some s) = specCleanAmended s) ∧
      cleanAnswer (some "1") = "A" := by
  constructor
  · intro s
    show cleanAnswerStr s = specCleanAmended s
    unfold cleanAnswerStr specCleanAmended
    cases hc : (trimChars s.toList).any (· == '\n') ||
        ((trimChars s.toList).any (· == ',') && (trimChars s.toList).any Char.isDigit) <;>
      simp only [hc, if_true, if_false, Bool.false_eq_true, ite_false, ite_true]
    cases hb : !(stripTrailingPunct (stripAnsTag (trimChars s.toList))).isEmpty &&
        (stripTrailingPunct (stripAnsTag (trimChars s.toList))).all Char.isDigit <;>
      simp [hb, Bool.decide_and, Bool.and_assoc]
  · decide

/-! ## C7 — the reference-ID parser -/

/-- Claim C7.  Reference-ID parsing is total (it returns a `RefParts` record
whose fields are plain strings, never null), and follows the layered policy on
the delimiter-separated parts of the trimmed input: with ≥ 3 parts,
`book = parts[0]`, `chapter = parts[1]`, `qLabel = join(parts[2:], ".")`; with
exactly 2 parts, `book = parts[0]`, `chapter = "General"`,
`qLabel = parts[1]`; with 0–1 parts, `book` is the source file name with its
database extension stripped (`"Uncategorized"` when unavailable),
`chapter = "All"`, and `qLabel` is `parts[0]` or `"0"`. -/
theorem parseRefId_layered (refId sourceFile : String) :
    (∀ p0 p1 p2 rest, splitDelims (jsTrim refId) = p0 :: p1 :: p2 :: rest →
        (parseRefId refId sourceFile).book = p0 ∧
          (parseRefId refId sourceFile).chapter = p1 ∧
          (parseRefId refId sourceFile).qLabel = String.intercalate "." (p2 :: rest)) ∧
      (∀ p0 p1, splitDelims (jsTrim refId) = [p0, p1] →
        (parseRefId refId sourceFile).book = p0 ∧
          (parseRefId refId sourceFile).chapter = "General" ∧
          (parseRefId refId sourceFile).qLabel = p1) ∧
      ((splitDelims (jsTrim refId)).length ≤ 1 →
        (parseRefId refId sourceFile).book =
            (if sourceFile = "" then "Uncategorized" else stripDbExt sourceFile) ∧
          (parseRefId refId sourceFile).chapter = "All" ∧
          (parseRefId refId sourceFile).qLabel =
            (if (splitDelims (jsTrim refId)).getD 0 "" = "" then "0"
              else (splitDelims (jsTrim refId)).getD 0 "")) := by
  refine ⟨?_, ?_, ?_⟩
  · intro p0 p1 p2 rest h
    simp [parseRefId, h]
  · intro p0 p1 h
    simp [parseRefId, h]
  · intro hlen
    rcases h : splitDelims (jsTrim refId) with _ | ⟨a, _ | ⟨b, t⟩⟩
    · simp [parseRefId, h]
    · simp [parseRefId, h]
    · rw [h] at hlen
      simp at hlen

/-- Witness for C7 at concrete inputs exercising all three layers. -/
theorem parseRefId_layered_witness :
    (parseRefId "B_C_1.2" "").book = "B" ∧
      (parseRefId "B_C_1.2" "").chapter = "C" ∧
      (parseRefId "B_C_1.2" "").qLabel = "1.2" ∧
      (parseRefId "PT_7" "").chapter = "General" ∧
      (parseRefId "x" "book.sqlite3").book = "book" := by
  have h3 := (parseRefId_layered "B_C_1.2" "").1 "B" "C" "1" ["2"] (by decide)
  have h2 := ((parseRefId_layered "PT_7" "").2.1) "PT" "7" (by decide)
  have h1 := ((parseRefId_layered "x" "book.sqlite3").2.2) (by decide)
  refine ⟨h3.1, h3.2.1, h3.2.2.trans (by decide), h2.2.1, h1.1.trans (by decide)⟩

/-! ## C6 — table selection -/

theorem pickBest_ge : ∀ (rest : List SrcTable) (best : SrcTable),
    tableScore best.cols ≤ tableScore (pickBest best rest).cols := by
  intro rest
  induction rest with
  | nil => intro best; simp [pickBest]
  | cons t ts ih =>
    intro best
    by_cases h : tableScore t.cols > tableScore best.cols
    · simp only [pickBest, if_pos h]
      exact le_trans (le_of_lt h) (ih t)
    · simp only [pickBest, if_neg h]
      exact ih best

theorem pickBest_decomp : ∀ (rest : List SrcTable) (best : SrcTable),
    ∃ l1 l2, best :: rest = l1 ++ pickBest best rest :: l2 ∧
      (∀ u ∈ l1, tableScore u.cols < tableScore (pickBest best rest).cols) ∧
      (∀ u ∈ l2, tableScore u.cols ≤ tableScore (pickBest best rest).cols) := by
  intro rest
  induction rest with
  | nil =>
    intro best
    exact ⟨[], [], rfl, by simp, by simp⟩
  | cons t ts ih =>
    intro best
    by_cases h : tableScore t.cols > tableScore best.cols
    · simp only [pickBest, if_pos h]
      obtain ⟨l1, l2, heq, h1, h2⟩ := ih t
      have hle : tableScore t.cols ≤ tableScore (pickBest t ts).cols := pickBest_ge ts t
      refine ⟨best :: l1, l2, ?_, ?_, h2⟩
      · rw [List.cons_append, ← heq]
      · intro u hu
        rcases List.mem_cons.mp hu with rfl | hu
        · exact lt_of_lt_of_le h hle
        · exact h1 u hu
    · simp only [pickBest, if_neg h]
      push_neg at h
      obtain ⟨l1, l2, heq, h1, h2⟩ := ih best
      have hge : tableScore best.cols ≤ tableScore (pickBest best ts).cols := pickBest_ge ts best
      cases l1 with
      | nil =>
        simp only [List.nil_append] at heq
        have hp : pickBest best ts = best := (List.cons.injEq _ _ _ _ ▸ heq).1.symm
        have hl2 : l2 = ts := (List.cons.injEq _ _ _ _ ▸ heq).2.symm
        refine ⟨[], t :: ts, ?_, by simp, ?_⟩
        · simp [hp]
        · intro u hu
          rcases List.mem_cons.mp hu with rfl | hu
          · rw [hp]; exact h
          · rw [← hl2] at hu
            exact h2 u hu
      | cons a l1' =>
        have ha : a = best := by
          have hh := congrArg (fun l => l.head?) heq
          simpa using hh.symm
        have hts : ts = l1' ++ pickBest best ts :: l2 := by
          have hh := congrArg (fun l => l.tail) heq
          simpa using hh
        have h1' : ∀ u ∈ best :: l1', tableScore u.cols < tableScore (pickBest best ts).cols := by
          intro u hu
          exact h1 u (by rw [ha]; exact hu)
        have hbest : tableScore best.cols < tableScore (pickBest best ts).cols :=
          h1' best (List.mem_cons_self best l1')
        refine ⟨best :: t :: l1', l2, ?_, ?_, h2⟩
        · conv_lhs => rw [hts]
          simp
        · intro u hu
          rcases List.mem_cons.mp hu with rfl | hu
          · exact hbest
          · rcases List.mem_cons.mp hu with rfl | hu
            · exact lt_of_le_of_lt h hbest
            · exact h1' u (List.mem_cons_of_mem best hu)

/-- Claim C6.  With several tables in a source file, each is scored by the
question-like/answer-like column patterns (`tableScore`), and the selected
table is the first one attaining the maximal score: the table list decomposes
as `l1 ++ selected :: l2` with every table in `l1` scoring strictly less and
every table in `l2` scoring at most as much.  In particular, of the two
scenario tables `[notes, date]` and `[Question, Answer, ChoiceA, ChoiceB]`,
the second is selected. -/
theorem tableSelection_firstMax :
    (∀ ts : List SrcTable, ts ≠ [] →
        ∃ t l1 l2, selectBestTable ts = some t ∧ ts = l1 ++ t :: l2 ∧
          (∀ u ∈ l1, tableScore u.cols < tableScore t.cols) ∧
          (∀ u ∈ l2, tableScore u.cols ≤ tableScore t.cols)) ∧
      selectBestTable [tDemoNotes, tDemoQA] = some tDemoQA := by
  constructor
  · intro ts hne
    cases ts with
    | nil => exact absurd rfl hne
    | cons t rest =>
      obtain ⟨l1, l2, heq, h1, h2⟩ := pickBest_decomp rest t
      exact ⟨pickBest t rest, l1, l2, rfl, heq, h1, h2⟩
  · decide

/-- Witness for C6: applying the selection theorem to the scenario list. -/
theorem tableSelection_firstMax_witness :
    ([tDemoNotes, tDemoQA] : List SrcTable) ≠ [] ∧
      ∃ t l1 l2, selectBestTable [tDemoNotes, tDemoQA] = some t ∧
        [tDemoNotes, tDemoQA] = l1 ++ t :: l2 ∧
        (∀ u ∈ l1, tableScore u.cols < tableScore t.cols) ∧
        (∀ u ∈ l2, tableScore u.cols ≤ tableScore t.cols) :=
  ⟨by decide, tableSelection_firstMax.1 [tDemoNotes, tDemoQA] (by decide)⟩

/-! ## C5 — rows with empty text and empty reference id are skipped -/

theorem processRow_none_iff (sid sname : String) (cols : List String) (f : String)
    (row : List (Option String)) :
    processRow sid sname cols f row = none ↔ rowIsEmpty cols row = true := by
  unfold processRow rowIsEmpty
  by_cases h : normCell (rowDataS (buildColMap cols) row (qTextColOf cols)) = "" ∧
      normCell (rowDataO (buildColMap cols) row (refColOf cols)) = ""
  · simp [h]
  · simp [h]

theorem importRows_length (sid sname : String) (cols : List String) (fb : Nat → String) :
    ∀ (rows : List (List (Option String))) (i : Nat),
      (importRows sid sname cols fb i rows).length =
        (rows.filter (fun r => !rowIsEmpty cols r)).length := by
  intro rows
  induction rows with
  | nil => intro i; rfl
  | cons r rs ih =>
    intro i
    by_cases he : rowIsEmpty cols r = true
    · have hn : processRow sid sname cols (fb i) r = none :=
        (processRow_none_iff sid sname cols (fb i) r).mpr he
      simp [importRows, hn, he, ih (i + 1)]
    · have hs : processRow sid sname cols (fb i) r ≠ none := by
        intro hn
        exact he ((processRow_none_iff sid sname cols (fb i) r).mp hn)
      obtain ⟨q, hq⟩ := Option.ne_none_iff_exists'.mp hs
      simp [importRows, hq, he, ih (i + 1)]

theorem importRows_src (sid sname : String) (cols : List String) (fb : Nat → String) :
    ∀ (rows : List (List (Option String))) (i : Nat) (sq : StoredRow),
      sq ∈ importRows sid sname cols fb i rows →
        ∃ row ∈ rows, rowIsEmpty cols row = false ∧
          ∃ j, processRow sid sname cols (fb j) row = some sq := by
  intro rows
  induction rows with
  | nil => intro i sq h; simp [importRows] at h
  | cons r rs ih =>
    intro i sq h
    rcases hp : processRow sid sname cols (fb i) r with _ | q
    · rw [importRows, hp] at h
      obtain ⟨row, hrow, hne, j, hj⟩ := ih (i + 1) sq h
      exact ⟨row, List.mem_cons_of_mem r hrow, hne, j, hj⟩
    · rw [importRows, hp] at h
      rcases List.mem_cons.mp h with rfl | h
      · refine ⟨r, List.mem_cons_self r rs, ?_, i, hp⟩
        have := (processRow_none_iff sid sname cols (fb i) r).mpr
        by_contra hc
        simp at hc
        rw [this hc] at hp
        cases hp
      · obtain ⟨row, hrow, hne, j, hj⟩ := ih (i + 1) sq h
        exact ⟨row, List.mem_cons_of_mem r hrow, hne, j, hj⟩

/-- Claim C5.  A source row whose normalized question text and normalized
reference id are both empty is skipped by the MERGE row loop: `processRow`
yields `none` for it (so it is never inserted), the imported count equals the
number of rows that are not empty in this sense, and every inserted row stems
from a non-empty source row. -/
theorem ingestion_skips_empty (sid sname : String) (cols : List String) (fb : Nat → String)
    (i : Nat) (rows : List (List (Option String))) :
    (∀ row f1, rowIsEmpty cols row = true → processRow sid sname cols f1 row = none) ∧
      (importRows sid sname cols fb i rows).length =
        (rows.filter (fun r => !rowIsEmpty cols r)).length ∧
      (∀ sq ∈ importRows sid sname cols fb i rows,
        ∃ row ∈ rows, rowIsEmpty cols row = false ∧
          ∃ j, processRow sid sname cols (fb j) row = some sq) := by
  refine ⟨?_, importRows_length sid sname cols fb rows i, importRows_src sid sname cols fb rows i⟩
  intro row f1 h
  exact (processRow_none_iff sid sname cols f1 row).mpr h

/-- Witness for C5: a concrete row with empty `Question Text` and empty
reference-id cell is not inserted. -/
theorem ingestion_skips_empty_witness :
    rowIsEmpty ["Question", "RefID"] [some " ", some ""] = true ∧
      processRow "s" "f" ["Question", "RefID"] "z" [some " ", some ""] = none :=
  ⟨by decide,
    (ingestion_skips_empty "s" "f" ["Question", "RefID"] (fun _ => "z") 0 []).1
      [some " ", some ""] "z" (by decide)⟩

/-! ## C8 / C9 — shape of choice keys and choice values -/

theorem choiceKeyChar_alnum (cs : List Char) (c : Char) (h : choiceKeyChar cs = some c) :
    c.isAlphanum = true := by
  unfold choiceKeyChar at h
  split at h
  · split at h
    · cases h
      assumption
    · cases h
  · split at h
    · split at h
      · split at h
        · cases h
          assumption
        · cases h
      · split at h
        · cases h
          simp_all
        · cases h
      · cases h
    · cases h

theorem upper_not_digit (c : Char) (h : c.isUpper = true) : c.isDigit = false := by
  by_contra hc
  have hd : c.isDigit = true := by simpa using hc
  have h1 := digit_bounds c hd
  have h2 : 65 ≤ c.toNat ∧ c.toNat ≤ 90 := by
    simp [Char.isUpper] at h
    exact ⟨h.1, h.2⟩
  omega

theorem getChoiceKey_shape (colName : String) (k : String)
    (h : getChoiceKey colName = some k) : keyShapeOk k = true := by
  unfold getChoiceKey at h
  rcases hcc : choiceKeyChar colName.toList with _ | c
  · rw [hcc] at h
    cases h
  · rw [hcc] at h
    simp only [Option.map_some'] at h
    have halnum : c.isAlphanum = true := choiceKeyChar_alnum _ _ hcc
    have hk := (Option.some.injEq _ _).mp h
    subst hk
    by_cases hd : c.isDigit = true
    · have ht : c.toUpper = c := toUpper_of_digit c hd
      rw [ht]
      have hb := digit_bounds c hd
      simp only [hd, if_true]
      by_cases h1 : 1 ≤ c.toNat - 48
      · rw [if_pos]
        · simp only [keyShapeOk, isUpperLetterKey]
          have : (String.mk [Char.ofNat (64 + (c.toNat - 48))]).toList =
              [Char.ofNat (64 + (c.toNat - 48))] := rfl
          rw [this]
          simp [isUpper_ofNat_range (64 + (c.toNat - 48)) (by omega) (by omega)]
        · simp only [Bool.and_eq_true, decide_eq_true_eq]
          omega
      · have h0 : c.toNat - 48 = 0 := by omega
        have hc0 : c = '0' := digit_sub48_zero c hd h0
        subst hc0
        decide
    · have ha : c.isAlpha = true := by
        simp [Char.isAlphanum] at halnum
        rcases halnum with ha | hd2
        · exact ha
        · exact absurd hd2 (by simpa using hd)
      have hu : c.toUpper.isUpper = true := isUpper_toUpper_of_alpha c ha
      have hnd : c.toUpper.isDigit = false := upper_not_digit _ hu
      rw [hnd]
      simp only [Bool.false_eq_true, if_false, keyShapeOk, isUpperLetterKey]
      have : (String.mk [c.toUpper]).toList = [c.toUpper] := rfl
      rw [this]
      simp [hu]

theorem mem_setAssoc {α : Type} (m : List (String × α)) (k : String) (v : α)
    (x : String × α) (h : x ∈ setAssoc m k v) : x ∈ m ∨ x = (k, v) := by
  induction m with
  | nil =>
    simp [setAssoc] at h
    exact Or.inr h
  | cons p t ih =>
    unfold setAssoc at h
    split at h
    · rcases List.mem_cons.mp h with h1 | h1
      · exact Or.inr h1
      · exact Or.inl (List.mem_cons_of_mem p h1)
    · rcases List.mem_cons.mp h with h1 | h1
      · exact Or.inl (by rw [h1]; exact List.mem_cons_self p t)
      · rcases ih h1 with h2 | h2
        · exact Or.inl (List.mem_cons_of_mem p h2)
        · exact Or.inr h2

/-- Every entry assembled from the choice columns has a well-shaped key and a
non-empty value. -/
theorem assembleChoices_entries (cols : List String) (colMap : List (String × Nat))
    (row : List (Option String)) :
    ∀ kv ∈ assembleChoices cols colMap row, keyShapeOk kv.1 = true ∧ kv.2 ≠ "" := by
  unfold assembleChoices
  suffices hgen : ∀ (l : List String) (acc : List (String × String)),
      (∀ kv ∈ acc, keyShapeOk kv.1 = true ∧ kv.2 ≠ "") →
      ∀ kv ∈ l.foldl (fun ch colName =>
        match getChoiceKey colName with
        | some key =>
          let val := normCell (rowDataS colMap row colName)
          if val = "" then ch else setAssoc ch key val
        | none => ch) acc, keyShapeOk kv.1 = true ∧ kv.2 ≠ "" by
    exact hgen cols [] (by simp)
  intro l
  induction l with
  | nil => intro acc hacc kv h; exact hacc kv h
  | cons colName rest ih =>
    intro acc hacc kv h
    simp only [List.foldl_cons] at h
    refine ih _ ?_ kv h
    intro kv' hkv'
    rcases hck : getChoiceKey colName with _ | key
    · rw [hck] at hkv'
      exact hacc kv' hkv'
    · rw [hck] at hkv'
      simp only at hkv'
      split at hkv'
      · exact hacc kv' hkv'
      · rcases mem_setAssoc _ _ _ _ hkv' with hm | rfl
        · exact hacc kv' hm
        · refine ⟨getChoiceKey_shape colName key hck, ?_⟩
          simpa using ‹¬normCell (rowDataS colMap row colName) = ""›

/-- The choices field the worker stores for a non-skipped row. -/
theorem processRow_choices (sid sname : String) (cols : List String) (f : String)
    (row : List (Option String)) (sq : StoredRow)
    (h : processRow sid sname cols f row = some sq) :
    sq.question_text = normCell (rowDataS (buildColMap cols) row (qTextColOf cols)) ∧
      sq.choices =
        (if sq.question_text = "" ∧ assembleChoices cols (buildColMap cols) row = [] then
          defaultChoices
        else assembleChoices cols (buildColMap cols) row) := by
  simp only [processRow] at h
  by_cases hc : normCell (rowDataS (buildColMap cols) row (qTextColOf cols)) = "" ∧
      normCell (rowDataO (buildColMap cols) row (refColOf cols)) = ""
  · rw [if_pos hc] at h
    cases h
  · rw [if_neg hc] at h
    have hr := (Option.some.injEq _ _).mp h
    subst hr
    exact ⟨rfl, rfl⟩

/-- Claim C8, counterexample.  The choice-column pattern also accepts the digit
`0`, which `getChoiceKey` does *not* remap to a letter: a table with a column
named `"0"` stores a choices mapping whose key is the non-letter string
`"0"`. -/
theorem choiceKeys_cex :
    getChoiceKey "0" = some "0" ∧ isUpperLetterKey "0" = false ∧
      (processRow "s" "f" ["Question", "0"] "fb" [some "Q1", some "zero"]).map
        (fun sr => sr.choices) = some [("0", "zero")] :=
  ⟨by decide, by decide, by decide⟩

/-- Claim C8, amended.  Keys of a stored choices mapping are single characters
that are uppercase letters, except that a choice column whose identifying
character is the digit `0` keeps the key `"0"`; an identifying digit 1–9 is
remapped to the corresponding letter (the single-character capture makes
digits 10–26 impossible), and in particular a column named `"2"` and a column
named `"Choice B"` map to the same canonical key `"B"`. -/
theorem choiceKeys_amended :
    (∀ colName k, getChoiceKey colName = some k → keyShapeOk k = true) ∧
      (∀ d : Nat, 1 ≤ d → d ≤ 9 →
        getChoiceKey (String.mk [Char.ofNat (48 + d)]) = some (String.mk [Char.ofNat (64 + d)])) ∧
      getChoiceKey "2" = some "B" ∧ getChoiceKey "Choice B" = some "B" ∧
      (∀ sid sname cols f row sq, processRow sid sname cols f row = some sq →
        ∀ kv ∈ sq.choices, keyShapeOk kv.1 = true) := by
  refine ⟨getChoiceKey_shape, ?_, by decide, by decide, ?_⟩
  · intro d h1 h2
    interval_cases d <;> decide
  · intro sid sname cols f row sq h kv hkv
    obtain ⟨-, hch⟩ := processRow_choices sid sname cols f row sq h
    rw [hch] at hkv
    split at hkv
    · simp only [defaultChoices, List.mem_cons, List.not_mem_nil, or_false] at hkv
      rcases hkv with h4 | h4 | h4 | h4 <;> (rw [h4]; decide)
    · exact (assembleChoices_entries cols (buildColMap cols) row kv hkv).1

/-- Witness for C8: applying the key-shape part at a concrete column name. -/
theorem choiceKeys_amended_witness :
    getChoiceKey "choice 3" = some "C" ∧ keyShapeOk "C" = true :=
  ⟨by decide, choiceKeys_amended.1 "choice 3" "C" (by decide)⟩

/-- Claim C9, counterexample.  A choice cell normalizing to the empty string is
omitted, but the placeholder only applies when the question text is *also*
empty: a row with non-empty text whose only choice cell is blank is stored
with zero choices. -/
theorem choiceValues_cex :
    getChoiceKey "A" = some "A" ∧ normCell (some "  ") = "" ∧
      (processRow "s" "f" ["Question", "A"] "fb" [some "Q", some "  "]).map
        (fun sr => sr.choices) = some [] :=
  ⟨by decide, by decide, by decide⟩

/-- Claim C9, amended.  A choice cell that normalizes to the empty string is
never inserted (every stored choice value is non-empty); when all choice
columns come out empty *and* the question text is also empty, the default
4-option placeholder is substituted — hence no stored row with empty question
text has zero choices (a stored row with non-empty text may still have zero
choices). -/
theorem choiceValues_amended (sid sname : String) (cols : List String) (f : String)
    (row : List (Option String)) (sq : StoredRow)
    (h : processRow sid sname cols f row = some sq) :
    (∀ kv ∈ sq.choices, kv.2 ≠ "") ∧
      (sq.question_text = "" → sq.choices ≠ []) ∧
      (sq.question_text = "" ∧ assembleChoices cols (buildColMap cols) row = [] →
        sq.choices = defaultChoices) := by
  obtain ⟨hq, hch⟩ := processRow_choices sid sname cols f row sq h
  refine ⟨?_, ?_, ?_⟩
  · intro kv hkv
    rw [hch] at hkv
    split at hkv
    · simp only [defaultChoices, List.mem_cons, List.not_mem_nil, or_false] at hkv
      rcases hkv with h4 | h4 | h4 | h4 <;> (rw [h4]; decide)
    · exact (assembleChoices_entries cols (buildColMap cols) row kv hkv).2
  · intro hqe
    rw [hch]
    split
    · decide
    · rename_i hcond
      intro hnil
      exact hcond ⟨hqe, hnil⟩
  · intro hcond
    rw [hch, if_pos hcond]

/-- Witness for C9: a concrete row with empty text and an all-blank choice
column gets the placeholder, hence non-empty choices. -/
theorem choiceValues_witness :
    processRow "s" "f" ["RefID", "A"] "r1" [some "r1", some " "] = some c9DemoRow ∧
      c9DemoRow.question_text = "" ∧ c9DemoRow.choices ≠ [] :=
  ⟨by decide, by decide,
    (choiceValues_amended "s" "f" ["RefID", "A"] "r1" [some "r1", some " "] c9DemoRow
      (by decide)).2.1 (by decide)⟩

/-! ## JS `Set` model lemmas -/

theorem mem_addSet (l : List String) (x y : String) : y ∈ addSet l x ↔ y ∈ l ∨ y = x := by
  unfold addSet
  split
  · rename_i hx
    constructor
    · exact Or.inl
    · rintro (h | rfl)
      · exact h
      · exact hx
  · simp

theorem nodup_addSet (l : List String) (x : String) (h : l.Nodup) : (addSet l x).Nodup := by
  unfold addSet
  split
  · exact h
  · rename_i hx
    simp [List.nodup_append, h, hx]

theorem mem_foldl_addSet :
    ∀ (xs : List String) (init : List String) (y : String),
      y ∈ xs.foldl addSet init ↔ y ∈ init ∨ y ∈ xs := by
  intro xs
  induction xs with
  | nil => intro init y; simp
  | cons a t ih =>
    intro init y
    simp only [List.foldl_cons]
    rw [ih, mem_addSet]
    constructor
    · rintro ((h | h) | h)
      · exact Or.inl h
      · exact Or.inr (by simp [h])
      · exact Or.inr (List.mem_cons_of_mem a h)
    · rintro (h | h)
      · exact Or.inl (Or.inl h)
      · rcases List.mem_cons.mp h with rfl | h
        · exact Or.inl (Or.inr rfl)
        · exact Or.inr h

theorem nodup_foldl_addSet :
    ∀ (xs : List String) (init : List String), init.Nodup → (xs.foldl addSet init).Nodup := by
  intro xs
  induction xs with
  | nil => intro init h; exact h
  | cons a t ih =>
    intro init h
    exact ih _ (nodup_addSet init a h)

theorem mem_jsSetList (l : List String) (y : String) : y ∈ jsSetList l ↔ y ∈ l := by
  unfold jsSetList
  rw [mem_foldl_addSet]
  simp

theorem nodup_jsSetList (l : List String) : (jsSetList l).Nodup :=
  nodup_foldl_addSet l [] List.nodup_nil

theorem jsSetList_eq_nil (l : List String) : jsSetList l = [] ↔ l = [] := by
  constructor
  · intro h
    cases l with
    | nil => rfl
    | cons a t =>
      exfalso
      have : a ∈ jsSetList (a :: t) := (mem_jsSetList _ a).mpr (List.mem_cons_self a t)
      rw [h] at this
      cases this
  · rintro rfl
    rfl

theorem toFinset_jsSetList (l : List String) : (jsSetList l).toFinset = l.toFinset := by
  ext y
  simp [List.mem_toFinset, mem_jsSetList]

theorem length_jsSetList (l : List String) : (jsSetList l).length = l.toFinset.card := by
  rw [← toFinset_jsSetList, List.toFinset_card_of_nodup (nodup_jsSetList l)]

/-! ## Natural-sort lemmas (membership only; no claim depends on the order) -/

theorem mem_insertNat (x y : String) : ∀ (l : List String), y ∈ insertNat x l ↔ y = x ∨ y ∈ l := by
  intro l
  induction l with
  | nil => simp [insertNat]
  | cons a t ih =>
    unfold insertNat
    split
    · simp
    · simp only [List.mem_cons, ih]
      tauto

theorem mem_sortNat (l : List String) (y : String) : y ∈ sortNat l ↔ y ∈ l := by
  unfold sortNat
  induction l with
  | nil => simp
  | cons a t ih =>
    simp only [List.foldr_cons, mem_insertNat, ih, List.mem_cons]

theorem sortNat_eq_nil (l : List String) : sortNat l = [] ↔ l = [] := by
  constructor
  · intro h
    cases l with
    | nil => rfl
    | cons a t =>
      exfalso
      have : a ∈ sortNat (a :: t) := (mem_sortNat _ a).mpr (List.mem_cons_self a t)
      rw [h] at this
      cases this
  · rintro rfl
    rfl

/-! ## Matching-group lemmas -/

theorem lookup_addGroup (gs : List (String × List MEntry)) (id : String) (e : MEntry)
    (idq : String) :
    lookupAssoc (addGroup gs id e) idq =
      if idq = id then some ((lookupAssoc gs id).getD [] ++ [e]) else lookupAssoc gs idq := by
  induction gs with
  | nil =>
    by_cases h : idq = id
    · subst h
      simp [addGroup, lookupAssoc]
    · have h' : (id == idq) = false := by
        simp
        exact fun hh => h hh.symm
      simp [addGroup, lookupAssoc, h', h]
  | cons p t ih =>
    obtain ⟨i, l⟩ := p
    by_cases hi : i = id
    · subst hi
      have hstep : addGroup ((i, l) :: t) i e = (i, l ++ [e]) :: t := by
        simp [addGroup]
      rw [hstep]
      by_cases h : idq = i
      · subst h
        simp [lookupAssoc]
      · have h1 : (i == idq) = false := by
          simp
          exact fun hh => h hh.symm
        simp [lookupAssoc, h1, h]
    · have hstep : addGroup ((i, l) :: t) id e = (i, l) :: addGroup t id e := by
        simp [addGroup, hi]
      rw [hstep]
      by_cases h : idq = i
      · subst h
        have h2 : ¬(idq = id) := hi
        simp [lookupAssoc, h2]
      · have h1 : (i == idq) = false := by
          simp
          exact fun hh => h hh.symm
        have h2 : (i == id) = false := by
          simp
          exact hi
        simp only [lookupAssoc, h1, if_false, Bool.false_eq_true, ih, h2]

/-- Generalized over the fold: every group in `matchGroups` is non-empty, and
every entry records a choice cell of the question (key preserved, display text
enumerator-stripped), grouped under the first character of its trimmed value,
uppercased. -/
theorem foldGroups_entries (l : List (String × String)) :
    ∀ (acc : List (String × List MEntry)) (id : String) (g : List MEntry),
      lookupAssoc (l.foldl (fun gs kv =>
        let cleanVal := jsTrim kv.2
        if cleanVal = "" then gs
        else addGroup gs (headCharUpper cleanVal) ⟨kv.1, cleanMatchText cleanVal⟩) acc) id =
          some g →
      ∀ e ∈ g,
        (∃ g0, lookupAssoc acc id = some g0 ∧ e ∈ g0) ∨
          ∃ kv ∈ l, jsTrim kv.2 ≠ "" ∧ id = headCharUpper (jsTrim kv.2) ∧
            e = ⟨kv.1, cleanMatchText (jsTrim kv.2)⟩ := by
  induction l with
  | nil =>
    intro acc id g h e he
    exact Or.inl ⟨g, h, he⟩
  | cons kv rest ih =>
    intro acc id g h e he
    simp only [List.foldl_cons] at h
    rcases ih _ id g h e he with hacc | ⟨kv', hkv', hne, hid, hee⟩
    · obtain ⟨g0, hg0, heg0⟩ := hacc
      by_cases hcv : jsTrim kv.2 = ""
      · rw [if_pos hcv] at hg0
        exact Or.inl ⟨g0, hg0, heg0⟩
      · rw [if_neg hcv] at hg0
        rw [lookup_addGroup] at hg0
        split at hg0
        · rename_i hid
          rw [← hid] at hg0
          have hg0' := (Option.some.injEq _ _).mp hg0
          subst hg0'
          rcases List.mem_append.mp heg0 with hm | hm
          · rcases hg : lookupAssoc acc id with _ | gold
            · rw [hg] at hm
              simp at hm
            · rw [hg] at hm
              exact Or.inl ⟨gold, rfl, hm⟩
          · have he' : e = ⟨kv.1, cleanMatchText (jsTrim kv.2)⟩ := by simpa using hm
            exact Or.inr ⟨kv, List.mem_cons_self kv rest, hcv, hid, he'⟩
        · exact Or.inl ⟨g0, hg0, heg0⟩
    · exact Or.inr ⟨kv', List.mem_cons_of_mem kv hkv', hne, hid, hee⟩

theorem foldGroups_nonempty (l : List (String × String)) :
    ∀ (acc : List (String × List MEntry)),
      (∀ id g, lookupAssoc acc id = some g → g ≠ []) →
      ∀ id g, lookupAssoc (l.foldl (fun gs kv =>
        let cleanVal := jsTrim kv.2
        if cleanVal = "" then gs
        else addGroup gs (headCharUpper cleanVal) ⟨kv.1, cleanMatchText cleanVal⟩) acc) id =
          some g → g ≠ [] := by
  induction l with
  | nil => intro acc hacc id g h; exact hacc id g h
  | cons kv rest ih =>
    intro acc hacc id g h
    simp only [List.foldl_cons] at h
    refine ih _ ?_ id g h
    intro id' g' hg'
    by_cases hcv : jsTrim kv.2 = ""
    · rw [if_pos hcv] at hg'
      exact hacc id' g' hg'
    · rw [if_neg hcv] at hg'
      rw [lookup_addGroup] at hg'
      split at hg'
      · have hg'' := (Option.some.injEq _ _).mp hg'
        subst hg''
        simp
      · exact hacc id' g' hg'

theorem matchGroups_nonempty (q : Question) (id : String) (g : List MEntry)
    (h : lookupAssoc (matchGroups q) id = some g) : g ≠ [] := by
  refine foldGroups_nonempty q.choices [] ?_ id g h
  intro id' g' hg'
  cases hg'

theorem matchGroups_entries (q : Question) (id : String) (g : List MEntry)
    (h : lookupAssoc (matchGroups q) id = some g) :
    ∀ e ∈ g, ∃ kv ∈ q.choices, jsTrim kv.2 ≠ "" ∧ id = headCharUpper (jsTrim kv.2) ∧
      e = ⟨kv.1, cleanMatchText (jsTrim kv.2)⟩ := by
  intro e he
  rcases foldGroups_entries q.choices [] id g h e he with ⟨g0, hg0, -⟩ | hsrc
  · cases hg0
  · exact hsrc

theorem matchValidPairs_lookup (q : Question) (p : String × String)
    (h : p ∈ matchValidPairs q) :
    ∃ lg rg, lookupAssoc (matchGroups q) p.1 = some lg ∧
      lookupAssoc (matchGroups q) p.2 = some rg := by
  unfold matchValidPairs at h
  obtain ⟨line, -, hline⟩ := List.mem_filterMap.mp h
  unfold linePairOf at hline
  dsimp only at hline
  split at hline
  · rename_i p0 p1 rest2 heq
    split at hline
    · rename_i hsome
      have hp := (Option.some.injEq _ _).mp hline
      obtain ⟨h1, h2⟩ := Bool.and_eq_true_iff.mp hsome
      obtain ⟨lg, hlg⟩ := Option.isSome_iff_exists.mp h1
      obtain ⟨rg, hrg⟩ := Option.isSome_iff_exists.mp h2
      subst hp
      exact ⟨lg, rg, hlg, hrg⟩
    · cases hline
  · cases hline

/-! ## Correct-link lemmas -/

theorem mem_pairLinkList (lg rg : List MEntry) (s : String) :
    s ∈ pairLinkList lg rg ↔ ∃ lc ∈ lg, ∃ rc ∈ rg, s = lc.text ++ "||" ++ rc.key := by
  unfold pairLinkList
  constructor
  · intro h
    obtain ⟨lc, hlc, hs⟩ := List.mem_flatMap.mp h
    obtain ⟨rc, hrc, hs2⟩ := List.mem_map.mp hs
    exact ⟨lc, hlc, rc, hrc, hs2.symm⟩
  · rintro ⟨lc, hlc, rc, hrc, rfl⟩
    exact List.mem_flatMap.mpr ⟨lc, hlc, List.mem_map.mpr ⟨rc, hrc, rfl⟩⟩

theorem mem_foldl_pairs (q : Question) :
    ∀ (pairs : List (String × String)) (init : List String) (s : String),
      s ∈ pairs.foldl (fun acc p =>
          match lookupAssoc (matchGroups q) p.1, lookupAssoc (matchGroups q) p.2 with
          | some lg, some rg => (pairLinkList lg rg).foldl addSet acc
          | _, _ => acc) init ↔
        s ∈ init ∨ ∃ p ∈ pairs, ∃ lg rg, lookupAssoc (matchGroups q) p.1 = some lg ∧
          lookupAssoc (matchGroups q) p.2 = some rg ∧ s ∈ pairLinkList lg rg := by
  intro pairs
  induction pairs with
  | nil => intro init s; simp
  | cons p rest ih =>
    intro init s
    simp only [List.foldl_cons]
    rcases hl : lookupAssoc (matchGroups q) p.1 with _ | lg <;>
      rcases hr : lookupAssoc (matchGroups q) p.2 with _ | rg <;>
      simp only [hl, hr] <;> rw [ih]
    · constructor
      · rintro (h | ⟨p', hp', w⟩)
        · exact Or.inl h
        · exact Or.inr ⟨p', List.mem_cons_of_mem p hp', w⟩
      · rintro (h | ⟨p', hp', lg', rg', hl', hr', hs⟩)
        · exact Or.inl h
        · rcases List.mem_cons.mp hp' with rfl | hp''
          · rw [hl] at hl'
            cases hl'
          · exact Or.inr ⟨p', hp'', lg', rg', hl', hr', hs⟩
    · constructor
      · rintro (h | ⟨p', hp', w⟩)
        · exact Or.inl h
        · exact Or.inr ⟨p', List.mem_cons_of_mem p hp', w⟩
      · rintro (h | ⟨p', hp', lg', rg', hl', hr', hs⟩)
        · exact Or.inl h
        · rcases List.mem_cons.mp hp' with rfl | hp''
          · rw [hl] at hl'
            cases hl'
          · exact Or.inr ⟨p', hp'', lg', rg', hl', hr', hs⟩
    · constructor
      · rintro (h | ⟨p', hp', w⟩)
        · exact Or.inl h
        · exact Or.inr ⟨p', List.mem_cons_of_mem p hp', w⟩
      · rintro (h | ⟨p', hp', lg', rg', hl', hr', hs⟩)
        · exact Or.inl h
        · rcases List.mem_cons.mp hp' with rfl | hp''
          · rw [hr] at hr'
            cases hr'
          · exact Or.inr ⟨p', hp'', lg', rg', hl', hr', hs⟩
    · rw [mem_foldl_addSet]
      constructor
      · rintro ((h | h) | ⟨p', hp', w⟩)
        · exact Or.inl h
        · exact Or.inr ⟨p, List.mem_cons_self p rest, lg, rg, hl, hr, h⟩
        · exact Or.inr ⟨p', List.mem_cons_of_mem p hp', w⟩
      · rintro (h | ⟨p', hp', lg', rg', hl', hr', hs⟩)
        · exact Or.inl (Or.inl h)
        · rcases List.mem_cons.mp hp' with rfl | hp''
          · rw [hl] at hl'
            rw [hr] at hr'
            cases hl'
            cases hr'
            exact Or.inl (Or.inr hs)
          · exact Or.inr ⟨p', hp'', lg', rg', hl', hr', hs⟩

theorem mem_correctLinksOf (q : Question) (s : String) :
    s ∈ correctLinksOf q ↔
      ∃ p ∈ matchValidPairs q, ∃ lg rg, lookupAssoc (matchGroups q) p.1 = some lg ∧
        lookupAssoc (matchGroups q) p.2 = some rg ∧ s ∈ pairLinkList lg rg := by
  unfold correctLinksOf
  rw [mem_foldl_pairs]
  simp

theorem nodup_correctLinksOf (q : Question) : (correctLinksOf q).Nodup := by
  unfold correctLinksOf
  suffices hgen : ∀ (pairs : List (String × String)) (init : List String), init.Nodup →
      (pairs.foldl (fun acc p =>
        match lookupAssoc (matchGroups q) p.1, lookupAssoc (matchGroups q) p.2 with
        | some lg, some rg => (pairLinkList lg rg).foldl addSet acc
        | _, _ => acc) init).Nodup by
    exact hgen _ [] List.nodup_nil
  intro pairs
  induction pairs with
  | nil => intro init h; exact h
  | cons p rest ih =>
    intro init h
    simp only [List.foldl_cons]
    rcases hl : lookupAssoc (matchGroups q) p.1 with _ | lg <;>
      rcases hr : lookupAssoc (matchGroups q) p.2 with _ | rg <;>
      simp only [hl, hr]
    · exact ih init h
    · exact ih init h
    · exact ih init h
    · exact ih _ (nodup_foldl_addSet _ init h)

theorem correctLinks_ne_nil_iff (q : Question) :
    correctLinksOf q ≠ [] ↔ matchValidPairs q ≠ [] := by
  constructor
  · intro h
    obtain ⟨s, hs⟩ := List.exists_mem_of_ne_nil _ h
    obtain ⟨p, hp, -⟩ := (mem_correctLinksOf q s).mp hs
    exact List.ne_nil_of_mem hp
  · intro h
    obtain ⟨p, hp⟩ := List.exists_mem_of_ne_nil _ h
    obtain ⟨lg, rg, hl, hr⟩ := matchValidPairs_lookup q p hp
    obtain ⟨lc, hlc⟩ := List.exists_mem_of_ne_nil _ (matchGroups_nonempty q p.1 lg hl)
    obtain ⟨rc, hrc⟩ := List.exists_mem_of_ne_nil _ (matchGroups_nonempty q p.2 rg hr)
    have hmem : lc.text ++ "||" ++ rc.key ∈ correctLinksOf q :=
      (mem_correctLinksOf q _).mpr
        ⟨p, hp, lg, rg, hl, hr, (mem_pairLinkList lg rg _).mpr ⟨lc, hlc, rc, hrc, rfl⟩⟩
    exact List.ne_nil_of_mem hmem

/-! ## C1 — the correct-link set is the Cartesian product over valid pairs -/

/-- Claim C1.  For every question, the correct-link set built by
`parseMatchConfiguration` contains exactly the strings
`"<leftText>||<rightKey>"` over the Cartesian product of the two choice groups
of each valid pair (so a pair with groups of sizes m and n contributes its m×n
product strings); the set is duplicate-free (overlapping products merge, being
a set); `isValid` equals `correctLinks ≠ ∅`; and every group entry's display
text is `cleanMatchText` of the trimmed choice cell, i.e. the leading
enumerator prefix is stripped. -/
theorem matchLinks_cartesian (q : Question) :
    (∀ p ∈ matchValidPairs q, ∀ lc ∈ (lookupAssoc (matchGroups q) p.1).getD [],
        ∀ rc ∈ (lookupAssoc (matchGroups q) p.2).getD [],
        lc.text ++ "||" ++ rc.key ∈ (parseMatchConfiguration q).correctLinks) ∧
      (∀ s ∈ (parseMatchConfiguration q).correctLinks,
        ∃ p ∈ matchValidPairs q, ∃ lc ∈ (lookupAssoc (matchGroups q) p.1).getD [],
          ∃ rc ∈ (lookupAssoc (matchGroups q) p.2).getD [],
            s = lc.text ++ "||" ++ rc.key) ∧
      (parseMatchConfiguration q).correctLinks.Nodup ∧
      ((parseMatchConfiguration q).isValid = true ↔
        (parseMatchConfiguration q).correctLinks ≠ []) ∧
      (∀ id g, lookupAssoc (matchGroups q) id = some g → ∀ e ∈ g,
        ∃ kv ∈ q.choices, e.key = kv.1 ∧ e.text = cleanMatchText (jsTrim kv.2)) := by
  refine ⟨?_, ?_, nodup_correctLinksOf q, ?_, ?_⟩
  · intro p hp lc hlc rc hrc
    obtain ⟨lg, rg, hl, hr⟩ := matchValidPairs_lookup q p hp
    rw [hl] at hlc
    rw [hr] at hrc
    show lc.text ++ "||" ++ rc.key ∈ correctLinksOf q
    exact (mem_correctLinksOf q _).mpr
      ⟨p, hp, lg, rg, hl, hr, (mem_pairLinkList lg rg _).mpr ⟨lc, hlc, rc, hrc, rfl⟩⟩
  · intro s hs
    obtain ⟨p, hp, lg, rg, hl, hr, hpl⟩ := (mem_correctLinksOf q s).mp hs
    obtain ⟨lc, hlc, rc, hrc, rfl⟩ := (mem_pairLinkList lg rg s).mp hpl
    refine ⟨p, hp, lc, ?_, rc, ?_, rfl⟩
    · rw [hl]
      exact hlc
    · rw [hr]
      exact hrc
  · show decide (0 < (correctLinksOf q).length) = true ↔ correctLinksOf q ≠ []
    rw [decide_eq_true_eq, List.length_pos]
  · intro id g hg e he
    obtain ⟨kv, hkv, -, -, he'⟩ := matchGroups_entries q id g hg e he
    exact ⟨kv, hkv, by rw [he'], by rw [he']⟩

/-- Witness for C1 at the concrete matching question `qDemoMatch`. -/
theorem matchLinks_cartesian_witness :
    (("A", "1") ∈ matchValidPairs qDemoMatch) ∧
      "Dog||B" ∈ (parseMatchConfiguration qDemoMatch).correctLinks :=
  ⟨by decide,
    (matchLinks_cartesian qDemoMatch).1 ("A", "1") (by decide) ⟨"A", "Dog"⟩ (by decide)
      ⟨"B", "Bark"⟩ (by decide)⟩

/-! ## C10 — validity invariants of `parseMatchConfiguration` -/

theorem leftItems_ne_nil_iff (q : Question) :
    leftItemsOf q ≠ [] ↔ matchValidPairs q ≠ [] := by
  unfold leftItemsOf
  constructor
  · intro h
    obtain ⟨s, hs⟩ := List.exists_mem_of_ne_nil _ h
    obtain ⟨id, hid, -⟩ := List.mem_flatMap.mp hs
    have hid2 : id ∈ matchLeftIds q := (mem_sortNat _ id).mp hid
    have hid3 : id ∈ (matchValidPairs q).map (·.1) :=
      (mem_jsSetList _ id).mp hid2
    obtain ⟨p, hp, -⟩ := List.mem_map.mp hid3
    exact List.ne_nil_of_mem hp
  · intro h
    obtain ⟨p, hp⟩ := List.exists_mem_of_ne_nil _ h
    obtain ⟨lg, rg, hl, -⟩ := matchValidPairs_lookup q p hp
    obtain ⟨lc, hlc⟩ := List.exists_mem_of_ne_nil _ (matchGroups_nonempty q p.1 lg hl)
    have hid : p.1 ∈ sortNat (matchLeftIds q) := by
      rw [mem_sortNat, ]
      exact (mem_jsSetList _ p.1).mpr (List.mem_map.mpr ⟨p, hp, rfl⟩)
    have hmem : lc.text ∈ (sortNat (matchLeftIds q)).flatMap fun id =>
        match lookupAssoc (matchGroups q) id with
        | some g => g.map (·.text)
        | none => [] := by
      refine List.mem_flatMap.mpr ⟨p.1, hid, ?_⟩
      rw [hl]
      exact List.mem_map.mpr ⟨lc, hlc, rfl⟩
    exact List.ne_nil_of_mem hmem

theorem rightChoices_ne_nil_iff (q : Question) :
    rightChoicesOf q ≠ [] ↔ matchValidPairs q ≠ [] := by
  unfold rightChoicesOf
  constructor
  · intro h
    obtain ⟨s, hs⟩ := List.exists_mem_of_ne_nil _ h
    obtain ⟨id, hid, -⟩ := List.mem_flatMap.mp hs
    have hid2 : id ∈ matchRightIds q := (mem_sortNat _ id).mp hid
    have hid3 : id ∈ (matchValidPairs q).map (·.2) :=
      (mem_jsSetList _ id).mp hid2
    obtain ⟨p, hp, -⟩ := List.mem_map.mp hid3
    exact List.ne_nil_of_mem hp
  · intro h
    obtain ⟨p, hp⟩ := List.exists_mem_of_ne_nil _ h
    obtain ⟨lg, rg, -, hr⟩ := matchValidPairs_lookup q p hp
    obtain ⟨rc, hrc⟩ := List.exists_mem_of_ne_nil _ (matchGroups_nonempty q p.2 rg hr)
    have hid : p.2 ∈ sortNat (matchRightIds q) := by
      rw [mem_sortNat]
      exact (mem_jsSetList _ p.2).mpr (List.mem_map.mpr ⟨p, hp, rfl⟩)
    have hmem : rc.key ∈ (sortNat (matchRightIds q)).flatMap fun id =>
        match lookupAssoc (matchGroups q) id with
        | some g => g.map (·.key)
        | none => [] := by
      refine List.mem_flatMap.mpr ⟨p.2, hid, ?_⟩
      rw [hr]
      exact List.mem_map.mpr ⟨rc, hrc, rfl⟩
    exact List.ne_nil_of_mem hmem

/-- Claim C10.  `parseMatchConfiguration` is total (a plain Lean function — the
source never throws), and `isValid` is true exactly when some answer-key line
resolved to a valid pair, exactly when `leftItems` is non-empty, and exactly
when `rightChoices` is non-empty; an invalid configuration has empty
`leftItems`, `rightChoices` and `correctLinks`. -/
theorem parseMatch_validity (q : Question) :
    ((parseMatchConfiguration q).isValid = true ↔ matchValidPairs q ≠ []) ∧
      ((parseMatchConfiguration q).isValid = true ↔
        (parseMatchConfiguration q).leftItems ≠ []) ∧
      ((parseMatchConfiguration q).isValid = true ↔
        (parseMatchConfiguration q).rightChoices ≠ []) ∧
      ((parseMatchConfiguration q).isValid = false →
        (parseMatchConfiguration q).leftItems = [] ∧
          (parseMatchConfiguration q).rightChoices = [] ∧
          (parseMatchConfiguration q).correctLinks = []) := by
  have hv : (parseMatchConfiguration q).isValid = true ↔ correctLinksOf q ≠ [] := by
    show decide (0 < (correctLinksOf q).length) = true ↔ correctLinksOf q ≠ []
    rw [decide_eq_true_eq, List.length_pos]
  have h1 : (parseMatchConfiguration q).isValid = true ↔ matchValidPairs q ≠ [] :=
    hv.trans (correctLinks_ne_nil_iff q)
  have h2 : (parseMatchConfiguration q).isValid = true ↔
      (parseMatchConfiguration q).leftItems ≠ [] :=
    h1.trans (leftItems_ne_nil_iff q).symm
  have h3 : (parseMatchConfiguration q).isValid = true ↔
      (parseMatchConfiguration q).rightChoices ≠ [] :=
    h1.trans (rightChoices_ne_nil_iff q).symm
  refine ⟨h1, h2, h3, ?_⟩
  intro hf
  have hnt : ¬(parseMatchConfiguration q).isValid = true := by
    rw [hf]
    simp
  refine ⟨?_, ?_, ?_⟩
  · by_contra hc
    exact hnt (h2.mpr hc)
  · by_contra hc
    exact hnt (h3.mpr hc)
  · by_contra hc
    exact hnt (hv.mpr hc)

/-- Witness for C10 at a concrete question with an unparseable answer key. -/
theorem parseMatch_validity_witness :
    (parseMatchConfiguration qDemoInvalid).isValid = false ∧
      (parseMatchConfiguration qDemoInvalid).leftItems = [] ∧
      (parseMatchConfiguration qDemoInvalid).rightChoices = [] ∧
      (parseMatchConfiguration qDemoInvalid).correctLinks = [] := by
  have h := (parseMatch_validity qDemoInvalid).2.2.2 (by decide)
  exact ⟨by decide, h.1, h.2.1, h.2.2⟩

/-! ## C2 — grading of matching questions -/

theorem correctLinks_length_toFinset (q : Question) :
    (parseMatchConfiguration q).correctLinks.length =
      (parseMatchConfiguration q).correctLinks.toFinset.card :=
  (List.toFinset_card_of_nodup (nodup_correctLinksOf q)).symm

theorem correctLinks_pos_of_valid (q : Question)
    (hV : (parseMatchConfiguration q).isValid = true) :
    0 < (parseMatchConfiguration q).correctLinks.length := by
  have hd : decide (0 < (correctLinksOf q).length) = true := hV
  exact decide_eq_true_eq.mp hd

theorem check_match_invalid (q : Question) (sub : Submission)
    (h : isMatch q.question_text = true)
    (hInv : (parseMatchConfiguration q).isValid = false)
    (hsub : ¬(sub = Submission.none)) :
    checkAnswerCorrectness q sub = false := by
  unfold checkAnswerCorrectness
  rw [if_neg hsub, if_pos h]
  dsimp only
  rw [hInv]
  rfl

theorem check_match_body (q : Question) (sub : Submission)
    (h : isMatch q.question_text = true)
    (hV : (parseMatchConfiguration q).isValid = true)
    (hsub : ¬(sub = Submission.none)) :
    checkAnswerCorrectness q sub =
      (if (jsSetList (subLinks sub)).length ≠ (parseMatchConfiguration q).correctLinks.length
        then false
        else (jsSetList (subLinks sub)).all fun link =>
          (parseMatchConfiguration q).correctLinks.contains link) := by
  unfold checkAnswerCorrectness
  rw [if_neg hsub, if_pos h]
  dsimp only
  rw [hV]
  rfl

/-- Claim C2.  For a matching question (`[MATCH]` tag in the text): a `null`
submission is always graded `false` (and grading is a total function — it
never throws); if the derived configuration is invalid — in particular when
the answer key was unparseable — the result is deterministically `false`;
otherwise the result is `true` exactly when the submitted link set equals
`correctLinks` as a set (which the code checks as equal cardinality plus
membership of every submitted link). -/
theorem matching_grading (q : Question) (sub : Submission)
    (h : isMatch q.question_text = true) :
    checkAnswerCorrectness q Submission.none = false ∧
      ((parseMatchConfiguration q).isValid = false → checkAnswerCorrectness q sub = false) ∧
      ((parseMatchConfiguration q).isValid = true →
        (checkAnswerCorrectness q sub = true ↔
          (subLinks sub).toFinset = (parseMatchConfiguration q).correctLinks.toFinset)) := by
  refine ⟨rfl, ?_, ?_⟩
  · intro hInv
    cases sub with
    | none => rfl
    | single s => exact check_match_invalid q _ h hInv (by simp)
    | multi l => exact check_match_invalid q _ h hInv (by simp)
  · intro hV
    have hpos := correctLinks_pos_of_valid q hV
    have hempty : ¬(([] : List String).toFinset =
        (parseMatchConfiguration q).correctLinks.toFinset) := by
      intro hc
      have hcard : (parseMatchConfiguration q).correctLinks.toFinset.card = 0 := by
        rw [← hc]
        simp
      rw [← correctLinks_length_toFinset] at hcard
      omega
    cases sub with
    | none =>
      have hck : checkAnswerCorrectness q Submission.none = false := rfl
      rw [hck]
      constructor
      · intro hc
        cases hc
      · intro hc
        exact absurd (by simpa using hc) hempty
    | single s =>
      rw [check_match_body q _ h hV (by simp)]
      have hlinks : subLinks (Submission.single s) = ([] : List String) := rfl
      rw [hlinks]
      have hlen : (jsSetList ([] : List String)).length ≠
          (parseMatchConfiguration q).correctLinks.length := by
        have h0 : (jsSetList ([] : List String)).length = 0 := rfl
        rw [h0]
        omega
      rw [if_pos hlen]
      constructor
      · intro hc
        cases hc
      · intro hc
        exact absurd hc hempty
    | multi l =>
      rw [check_match_body q _ h hV (by simp)]
      have hlinks : subLinks (Submission.multi l) = l := rfl
      rw [hlinks]
      have hu : (jsSetList l).length = l.toFinset.card := length_jsSetList l
      by_cases hlen : (jsSetList l).length = (parseMatchConfiguration q).correctLinks.length
      · rw [if_neg (fun hx => hx hlen)]
        constructor
        · intro hc
          have hforall : ∀ x ∈ jsSetList l, x ∈ (parseMatchConfiguration q).correctLinks := by
            intro x hx
            have hcx := List.all_eq_true.mp hc x hx
            simpa using hcx
          have hsub2 : l.toFinset ⊆ (parseMatchConfiguration q).correctLinks.toFinset := by
            intro x hx
            rw [List.mem_toFinset] at hx ⊢
            exact hforall x ((mem_jsSetList l x).mpr hx)
          refine Finset.eq_of_subset_of_card_le hsub2 ?_
          rw [← correctLinks_length_toFinset, ← hlen, hu]
        · intro heq
          rw [List.all_eq_true]
          intro x hx
          have hxl : x ∈ l := (mem_jsSetList l x).mp hx
          have hxm : x ∈ (parseMatchConfiguration q).correctLinks := by
            have hxf : x ∈ (parseMatchConfiguration q).correctLinks.toFinset := by
              rw [← heq, List.mem_toFinset]
              exact hxl
            exact List.mem_toFinset.mp hxf
          simpa using hxm
      · rw [if_pos hlen]
        constructor
        · intro hc
          cases hc
        · intro heq
          exfalso
          apply hlen
          rw [hu, heq, correctLinks_length_toFinset]

/-- Witness for C2 at `qDemoMatch` with the exactly-right submission. -/
theorem matching_grading_witness :
    isMatch qDemoMatch.question_text = true ∧
      (parseMatchConfiguration qDemoMatch).isValid = true ∧
      checkAnswerCorrectness qDemoMatch (Submission.multi ["Dog||B"]) = true :=
  ⟨by decide, by decide,
    ((matching_grading qDemoMatch (Submission.multi ["Dog||B"]) (by decide)).2.2
      (by decide)).mpr (by decide)⟩

/-! ## C3 — multi-select grading has set semantics -/

/-- Claim C3.  For every non-matching question graded as multi-select, the
submission array is treated as a set: grading is invariant under permutation
of the submitted array.  In particular the scenario question with raw answer
`"A,C"`, four choices and no multi-select tag is graded as multi-select;
submitting `["A"]` is incorrect and submitting `["C","A"]` is correct. -/
theorem multiSelect_set_semantics :
    (∀ (q : Question) (l l' : List String), isMatch q.question_text = false →
        isMultiSelect q = true → l.Perm l' →
        checkAnswerCorrectness q (Submission.multi l) =
          checkAnswerCorrectness q (Submission.multi l')) ∧
      isMultiSelect qDemoAC = true ∧
      checkAnswerCorrectness qDemoAC (Submission.multi ["A"]) = false ∧
      checkAnswerCorrectness qDemoAC (Submission.multi ["C", "A"]) = true := by
  refine ⟨?_, by decide, by decide, by decide⟩
  intro q l l' hM hMS hperm
  have hfin : l.toFinset = l'.toFinset := List.toFinset_eq_of_perm l l' hperm
  have hlen : (jsSetList l).length = (jsSetList l').length := by
    rw [length_jsSetList, length_jsSetList, hfin]
  have hall : ∀ p : String → Bool, (jsSetList l).all p = (jsSetList l').all p := by
    intro p
    rcases hal : (jsSetList l').all p with _ | _
    · rcases hal2 : (jsSetList l).all p with _ | _
      · rfl
      · exfalso
        have hforall : ∀ x ∈ jsSetList l', p x = true := by
          intro x hx
          exact List.all_eq_true.mp hal2 x
            ((mem_jsSetList l x).mpr (hperm.mem_iff.mpr ((mem_jsSetList l' x).mp hx)))
        rw [← List.all_eq_true] at hforall
        rw [hal] at hforall
        cases hforall
    · rw [List.all_eq_true]
      intro x hx
      exact List.all_eq_true.mp hal x
        ((mem_jsSetList l' x).mpr (hperm.mem_iff.mp ((mem_jsSetList l x).mp hx)))
  unfold checkAnswerCorrectness
  rw [if_neg (show ¬(Submission.multi l = Submission.none) by simp),
    if_neg (show ¬(Submission.multi l' = Submission.none) by simp), hM]
  simp only [Bool.false_eq_true, if_false]
  rw [hMS]
  rw [if_pos rfl, if_pos rfl]
  rw [hlen, hall]

/-- Witness for C3: the permutation invariance applied at the scenario
question and the two orderings of the correct pair. -/
theorem multiSelect_set_semantics_witness :
    isMatch qDemoAC.question_text = false ∧ isMultiSelect qDemoAC = true ∧
      (["A", "C"] : List String).Perm ["C", "A"] ∧
      checkAnswerCorrectness qDemoAC (Submission.multi ["A", "C"]) =
        checkAnswerCorrectness qDemoAC (Submission.multi ["C", "A"]) :=
  ⟨by decide, by decide, by decide,
    multiSelect_set_semantics.1 qDemoAC ["A", "C"] ["C", "A"] (by decide) (by decide)
      (by decide)⟩

end QuizMaster
